import Mathlib

/-!
# Verification of the ts-orm request-scoped caching / batching / transaction core

Shallow embedding of the repository's core data-access layer:

* `makeCacheKey` / `stableStringifyWithBigInt`  (src: cache/makeCacheKey.ts)
* `RequestCache` with reverse index            (src: cache/RequestCache.ts)
* `DataLoader` batching queue and dispatch     (src: utils/DataLoader.ts)
* `DataRepository.find / findById / findByIds / update` (src: model/repository.ts)
* `BaseModel.withTransaction / recordWrite / inTransaction` (src: model/BaseModel.ts)
* `createORMContext.run` context isolation     (src: context.ts)

JavaScript dynamic values are modelled by `JsPrim` / `JsValue`; numbers are
restricted to the integers actually exercised by this code base (ids, counters),
bigints carry arbitrary integers.  Maps (`Map`, plain objects) are modelled by
insertion-ordered association lists, JS `Set` by insertion-ordered
duplicate-free lists, mirroring the iteration-order guarantees the code relies
on.  Asynchronous control flow is modelled by explicit state passing plus
event traces: each repository operation returns its result (`Except` for a
rejected promise), the updated ambient context, and the ordered list of
observable effects (database round trips, cache reads/writes, loader use).
-/

/-- JavaScript primitive values (the scalars the ORM passes around). -/
inductive JsPrim : Type
  | pNull
  | pUndef
  | pBool (b : Bool)
  | pNum (n : Int)
  | pStr (s : String)
  | pBig (n : Int)
deriving DecidableEq, Repr

/-- JavaScript values: primitives, arrays, and plain objects
(an object is an insertion-ordered field list with distinct keys). -/
inductive JsValue : Type
  | prim (p : JsPrim)
  | arr (xs : List JsValue)
  | obj (fields : List (String × JsValue))
deriving Repr

/-- JS template-literal stringification of a primitive  (`${x}` / `String(x)`). -/
def primToString : JsPrim → String
  | .pNull => "null"
  | .pUndef => "undefined"
  | .pBool b => toString b
  | .pNum n => toString n
  | .pStr s => s
  | .pBig n => toString n

/-- Lower-case hexadecimal digit, used by JSON string escaping. -/
def hexDigit (n : Nat) : Char :=
  if n < 10 then Char.ofNat (48 + n) else Char.ofNat (87 + n)

/-- JSON escaping of a single character, as `JSON.stringify` does. -/
def jsonEscapeChar (c : Char) : String :=
  if c = '"' then "\\\""
  else if c = '\\' then "\\\\"
  else if c = '\x08' then "\\b"
  else if c = '\x09' then "\\t"
  else if c = '\x0a' then "\\n"
  else if c = '\x0c' then "\\f"
  else if c = '\x0d' then "\\r"
  else if c.toNat < 32 then
    "\\u00" ++ String.singleton (hexDigit (c.toNat / 16)) ++ String.singleton (hexDigit (c.toNat % 16))
  else String.singleton c

/-- `JSON.stringify` of a string: quoted, with escapes. -/
def jsonStringify (s : String) : String :=
  "\"" ++ String.join (s.toList.map jsonEscapeChar) ++ "\""

/-- Lexicographic comparison of character lists, the comparison JS
`Array.prototype.sort()` applies to strings (code-unit order; identical to
scalar-value order on the ASCII keys this code base uses). -/
def charListLe : List Char → List Char → Bool
  | [], _ => true
  | _ :: _, [] => false
  | a :: as, b :: bs => if a < b then true else if b < a then false else charListLe as bs

/-- Boolean string comparison used for key sorting. -/
def strLeb (a b : String) : Bool := charListLe a.toList b.toList

/-- Ordering of (key, stringified value) pairs by key, the order
`Object.keys(value).sort()` produces (lexicographic on the key strings). -/
def keyLe (a b : String × String) : Prop := strLeb a.1 b.1 = true

instance : DecidableRel keyLe := fun a b => inferInstanceAs (Decidable (strLeb a.1 b.1 = true))

/-- Sort object fields by key, as the source's `Object.keys(value).sort()` does. -/
def sortByKey (l : List (String × String)) : List (String × String) :=
  List.insertionSort keyLe l

mutual
/-- `stableStringifyWithBigInt` from cache/makeCacheKey.ts.  The source sorts
`Object.keys(value)` and then reads each key back from the object; since a JS
object has distinct keys this equals stringifying each field and sorting the
(key, stringified value) pairs by key, which keeps the recursion structural. -/
def stableStringifyWithBigInt : JsValue → String
  | .prim .pNull => "null"
  | .prim .pUndef => "undefined"
  | .prim (.pBig n) => "bigint:" ++ toString n
  | .prim (.pStr s) => jsonStringify s
  | .prim (.pNum n) => toString n
  | .prim (.pBool b) => toString b
  | .arr xs => "[" ++ String.intercalate "," (stableStringifyList xs) ++ "]"
  | .obj fs =>
      "\x7b" ++
        String.intercalate ","
          ((sortByKey (stableStringifyFields fs)).map
            (fun p => jsonStringify p.1 ++ ":" ++ p.2)) ++
      "\x7d"
termination_by structural v => v

/-- Stringify the elements of an array, in order. -/
def stableStringifyList : List JsValue → List String
  | [] => []
  | x :: xs => stableStringifyWithBigInt x :: stableStringifyList xs
termination_by structural l => l

/-- Stringify the value of each object field, keeping the key. -/
def stableStringifyFields : List (String × JsValue) → List (String × String)
  | [] => []
  | (k, v) :: fs => (k, stableStringifyWithBigInt v) :: stableStringifyFields fs
termination_by structural l => l
end

/-- The per-part encoding of `makeCacheKey`: type-tag prefixes, with top-level
strings embedded raw (`'s:' + part`) and numbers/booleans via template
stringification. -/
def makeCacheKeyPart : JsValue → String
  | .prim .pNull => "null"
  | .prim .pUndef => "undefined"
  | .prim (.pBig n) => "bigint:" ++ toString n
  | .arr xs => "a:" ++ stableStringifyWithBigInt (.arr xs)
  | .prim (.pStr s) => "s:" ++ s
  | .prim (.pNum n) => "n:" ++ toString n
  | .prim (.pBool b) => "b:" ++ toString b
  | .obj fs => "o:" ++ stableStringifyWithBigInt (.obj fs)

/-- `makeCacheKey(...parts)` from cache/makeCacheKey.ts: encode each part and
join the encodings with `':'`. -/
def makeCacheKey (parts : List JsValue) : String :=
  String.intercalate ":" (parts.map makeCacheKeyPart)

/-! ## RequestCache  (src: cache/RequestCache.ts)

`store` and `reverseIndex` are JS `Map`s, modelled as insertion-ordered
association lists with distinct keys (`mapSet` updates in place, else appends,
exactly as `Map.prototype.set` does).  Reverse-index buckets are JS `Set`s:
insertion-ordered duplicate-free lists. -/

/-- A value held in the cache: `find` stores row arrays, `findById` stores a
row-or-null.  (The TS cache is untyped; these are the two shapes the
repository ever stores.) -/
inductive Cached : Type
  | rows (rs : List (List (String × JsPrim)))
  | row (r : Option (List (String × JsPrim)))
deriving DecidableEq, Repr

/-- A database row: column name to primitive value. -/
abbrev Row := List (String × JsPrim)

/-- `Map.prototype.set`: overwrite in place if the key is present, else append. -/
def mapSet {β : Type} (m : List (String × β)) (k : String) (v : β) : List (String × β) :=
  if k ∈ m.map Prod.fst then
    m.map (fun p => if p.1 = k then (k, v) else p)
  else m ++ [(k, v)]

structure RequestCache : Type where
  store : List (String × Cached)
  reverseIndex : List (String × List String)
deriving DecidableEq, Repr

/-- `new RequestCache()`. -/
def RequestCache.emptyCache : RequestCache := ⟨[], []⟩

/-- `RequestCache.get`. -/
def RequestCache.get (c : RequestCache) (k : String) : Option Cached :=
  c.store.lookup k

/-- `RequestCache.has`. -/
def RequestCache.hasKey (c : RequestCache) (k : String) : Bool :=
  (c.store.lookup k).isSome

/-- `RequestCache.set`. -/
def RequestCache.setKey (c : RequestCache) (k : String) (v : Cached) : RequestCache :=
  { c with store := mapSet c.store k v }

/-- `RequestCache.registerKeyForId(table, id, cacheKey)`: append `cacheKey` to
the reverse-index bucket for `table:id`, creating the bucket if absent
(the bucket is a JS `Set`, hence the duplicate check). -/
def RequestCache.registerKeyForId (c : RequestCache) (table id cacheKey : String) :
    RequestCache :=
  let indexKey := table ++ ":" ++ id
  let bucket := (c.reverseIndex.lookup indexKey).getD []
  let bucket' := if cacheKey ∈ bucket then bucket else bucket ++ [cacheKey]
  { c with reverseIndex := mapSet c.reverseIndex indexKey bucket' }

/-- `RequestCache.invalidateKeysForId(table, id)`: delete every key in the
bucket from `store`, then delete the bucket; a no-op when the bucket is
absent. -/
def RequestCache.invalidateKeysForId (c : RequestCache) (table id : String) : RequestCache :=
  let indexKey := table ++ ":" ++ id
  match c.reverseIndex.lookup indexKey with
  | none => c
  | some keys =>
      { store := keys.foldl (fun s k => s.filter (fun p => !(p.1 == k))) c.store
        reverseIndex := c.reverseIndex.filter (fun p => !(p.1 == indexKey)) }

/-! ## DataLoader  (src: utils/DataLoader.ts)

`queue` is a `Map<K, callback[]>`, modelled as an insertion-ordered
association list from key to the ordered list of waiting callers; callers are
identified by values of a type `C`.  One scheduling cycle (`load` calls within
one tick followed by the single scheduled `dispatch`) is modelled by
`buildQueue` followed by `dispatchModel`: the `scheduled` flag in the source
guarantees exactly one `dispatch` runs per cycle, and `dispatch` invokes the
batch function exactly once. -/

/-- The fate of one waiting caller: resolved with a value-or-null, or rejected. -/
inductive Outcome (V E : Type) : Type
  | resolved (v : Option V)
  | rejected (e : E)
deriving DecidableEq, Repr

/-- `DataLoader.load(key)`: push the caller onto the entry for `key`, creating
the entry at the end of the queue when the key is new. -/
def enqueue {K C : Type} [DecidableEq K] (q : List (K × List C)) (c : C) (k : K) :
    List (K × List C) :=
  if k ∈ q.map Prod.fst then
    q.map (fun e => if e.1 = k then (e.1, e.2 ++ [c]) else e)
  else q ++ [(k, [c])]

/-- The queue accumulated by a sequence of same-tick `load` calls. -/
def buildQueue {K C : Type} [DecidableEq K] (loads : List (C × K)) : List (K × List C) :=
  loads.foldl (fun q p => enqueue q p.1 p.2) []

/-- The resolution loop of `dispatch`: caller lists are walked in queue order,
entry `i` resolving with `results[i] ?? null`. -/
def resolveFrom {K C V E : Type} (results : List (Option V)) :
    Nat → List (K × List C) → List (C × Outcome V E)
  | _, [] => []
  | i, (_, cs) :: rest =>
      cs.map (fun c => (c, Outcome.resolved ((results.get? i).getD none)))
        ++ resolveFrom results (i + 1) rest

/-- `DataLoader.dispatch()`: snapshot the queued keys in first-enqueue order,
call the batch function once on them, and either resolve every caller
positionally or reject every caller with the batch error. -/
def dispatchModel {K C V E : Type} (q : List (K × List C))
    (batchResult : Except E (List (Option V))) : List (C × Outcome V E) :=
  match batchResult with
  | .ok results => resolveFrom results 0 q
  | .error e => q.foldr (fun p acc => p.2.map (fun c => (c, Outcome.rejected e)) ++ acc) []

/-- One full scheduling cycle: the outcomes delivered to each caller. -/
def tickOutcomes {K C V E : Type} [DecidableEq K] (loads : List (C × K))
    (batch : List K → Except E (List (Option V))) : List (C × Outcome V E) :=
  let q := buildQueue loads
  dispatchModel q (batch (q.map Prod.fst))

/-- First-seen-order deduplication, the specification-side description of the
key list a dispatch cycle hands to the batch function. -/
def dedupFS {K : Type} [DecidableEq K] (ks : List K) : List K :=
  ks.foldl (fun acc k => if k ∈ acc then acc else acc ++ [k]) []

/-! ## Ambient context and repository  (src: context.ts, model/repository.ts)

`RequestState` carries the active handle, the cache, the optional transaction
write-set (`writtenRecords`, present exactly in transaction scopes) and the
per-context DataLoader registry.  The handle itself is opaque; a database
round trip on the current handle is represented by the query outcome
`Except String (List Row)` (the engine either returns the table's rows or
rejects) plus a `query` event.  The DataLoader registry stores opaque loader
instances; we track the registered keys.  Repository reads are modelled run to
completion: a `load` on a fresh loader dispatches its batch function, which
queries the engine. -/

/-- The ambient `RequestState` of context.ts (minus the opaque `db` handle,
which is passed separately as the query outcome). -/
structure Ctx : Type where
  writtenRecords : Option (List String)
  cache : RequestCache
  loaderKeys : List String
deriving DecidableEq, Repr

/-- `BaseModel.inTransaction()`: a transaction context is recognized by the
presence of `writtenRecords`. -/
def Ctx.inTransaction (c : Ctx) : Bool := c.writtenRecords.isSome

/-- `createORMContext(config).run(fn)`: fresh context, `config.cache` or a new
cache, no write-set, empty loader registry. -/
def runFreshCtx (suppliedCache : Option RequestCache) : Ctx :=
  ⟨none, suppliedCache.getD RequestCache.emptyCache, []⟩

/-- `BaseModel.getDataLoader(key, create)`: create and register the loader on
first use of `key`. -/
def addLoader (ctx : Ctx) (k : String) : Ctx :=
  if k ∈ ctx.loaderKeys then ctx else { ctx with loaderKeys := ctx.loaderKeys ++ [k] }

/-- `BaseModel.recordWrite(table, id)`: add `` `${table}:${id}` `` to the
write-set when one is present (i.e. inside a transaction), else do nothing. -/
def Ctx.recordWriteCtx (ctx : Ctx) (table idStr : String) : Ctx :=
  match ctx.writtenRecords with
  | some ws =>
      let key := table ++ ":" ++ idStr
      { ctx with writtenRecords := some (if key ∈ ws then ws else ws ++ [key]) }
  | none => ctx

/-- Observable effects of one repository call, in order. -/
inductive Ev : Type
  | query
  | cacheCheck (k : String) (hit : Bool)
  | cacheSet (k : String)
  | register (indexKey cacheKey : String)
  | loaderLoad (k : String)
deriving DecidableEq, Repr

/-- Column access `row[field]`. -/
def lookupField (r : Row) (f : String) : Option JsPrim := r.lookup f

/-- String form of `row[field]` as used for reverse-index ids
(`undefined` when the column is absent, as the JS template literal yields). -/
def fieldToString (r : Row) (f : String) : String :=
  match lookupField r f with
  | some v => primToString v
  | none => "undefined"

/-- The conjunction of `.where(key, '=', value)` clauses `find` builds. -/
def rowMatches (w : List (String × JsPrim)) (r : Row) : Bool :=
  w.all (fun kv => lookupField r kv.1 == some kv.2)

/-- A `Partial<T>` where-argument as the `JsValue` handed to `makeCacheKey`. -/
def whereToJs (w : List (String × JsPrim)) : JsValue :=
  .obj (w.map (fun p => (p.1, .prim p.2)))

/-- Read a `find` result back from the cache (the repository only ever stores
row arrays under `find` keys, so the other shape is unreachable). -/
def cachedRows : Option Cached → List Row
  | some (.rows rs) => rs
  | _ => []

/-- Read a `findById` result back from the cache (only row-or-null is ever
stored under `findById` keys). -/
def cachedRow : Option Cached → Option Row
  | some (.row r) => r
  | _ => none

/-- The last row of `rows` whose `f` column equals `id` — the row that survives
the `map.set` overwrite loop in `findByIds`. -/
def lastMatch (rows : List Row) (id : JsPrim) (f : String) : Option Row :=
  rows.foldl (fun acc r => if lookupField r f == some id then some r else acc) none

/-- The cache key `find` computes: `makeCacheKey(tableName, 'find', where)`. -/
def findCacheKey (tbl : String) (w : List (String × JsPrim)) : String :=
  makeCacheKey [.prim (.pStr tbl), .prim (.pStr "find"), whereToJs w]

/-- The cache key `findById` computes:
`makeCacheKey(tableName, 'findById', \x7b [idField]: id \x7d)`. -/
def findByIdCacheKey (tbl : String) (id : JsPrim) (idField : String) : String :=
  makeCacheKey [.prim (.pStr tbl), .prim (.pStr "findById"), .obj [(idField, .prim id)]]

/-- `DataRepository.find(where)`.  Inside a transaction: query directly.
Outside: cache check, then a per-where DataLoader whose batch function runs
the query, then `cache.set` plus reverse-index registration of each resolved
row under its literal `'id'` column (rows without an `'id'` column register
nothing). -/
def findModel (tbl : String) (db : Except String (List Row)) (ctx : Ctx)
    (w : List (String × JsPrim)) : Except String (List Row) × Ctx × List Ev :=
  if ctx.inTransaction then
    match db with
    | .error e => (.error e, ctx, [.query])
    | .ok rows => (.ok (rows.filter (rowMatches w)), ctx, [.query])
  else
    let cacheKey := findCacheKey tbl w
    if ctx.cache.hasKey cacheKey then
      (.ok (cachedRows (ctx.cache.get cacheKey)), ctx, [.cacheCheck cacheKey true])
    else
      let loaderKey := tbl ++ ":find:" ++ makeCacheKey [whereToJs w]
      let ctx₁ := addLoader ctx loaderKey
      match db with
      | .error e =>
          (.error e, ctx₁, [.cacheCheck cacheKey false, .loaderLoad loaderKey, .query])
      | .ok rows =>
          let result := rows.filter (rowMatches w)
          let cache₁ := ctx₁.cache.setKey cacheKey (.rows result)
          let ids := result.filterMap (fun r => (lookupField r "id").map primToString)
          let cache₂ := ids.foldl (fun c i => c.registerKeyForId tbl i cacheKey) cache₁
          (.ok result, { ctx₁ with cache := cache₂ },
            [.cacheCheck cacheKey false, .loaderLoad loaderKey, .query, .cacheSet cacheKey]
              ++ ids.map (fun i => .register (tbl ++ ":" ++ i) cacheKey))

/-- `DataRepository.findById(id, idField)`.  Inside a transaction: direct
`limit(1)` query (first matching row).  Outside: cache check, then the
per-idField DataLoader whose batch function is `findByIds`, then `cache.set`
plus registration under `value[idField]` when a row was found. -/
def findByIdModel (tbl : String) (db : Except String (List Row)) (ctx : Ctx)
    (id : JsPrim) (idField : String) : Except String (Option Row) × Ctx × List Ev :=
  if ctx.inTransaction then
    match db with
    | .error e => (.error e, ctx, [.query])
    | .ok rows =>
        (.ok (rows.find? (fun r => lookupField r idField == some id)), ctx, [.query])
  else
    let cacheKey := findByIdCacheKey tbl id idField
    if ctx.cache.hasKey cacheKey then
      (.ok (cachedRow (ctx.cache.get cacheKey)), ctx, [.cacheCheck cacheKey true])
    else
      let loaderKey := tbl ++ ":" ++ idField
      let ctx₁ := addLoader ctx loaderKey
      match db with
      | .error e =>
          (.error e, ctx₁, [.cacheCheck cacheKey false, .loaderLoad loaderKey, .query])
      | .ok rows =>
          let value := lastMatch (rows.filter (fun r => lookupField r idField == some id)) id idField
          let cache₁ := ctx₁.cache.setKey cacheKey (.row value)
          match value with
          | some r =>
              (.ok (some r),
               { ctx₁ with cache := cache₁.registerKeyForId tbl (fieldToString r idField) cacheKey },
               [.cacheCheck cacheKey false, .loaderLoad loaderKey, .query, .cacheSet cacheKey,
                .register (tbl ++ ":" ++ fieldToString r idField) cacheKey])
          | none =>
              (.ok none, { ctx₁ with cache := cache₁ },
               [.cacheCheck cacheKey false, .loaderLoad loaderKey, .query, .cacheSet cacheKey])

/-- `DataRepository.findByIds(ids, idField)`: `[]` without touching the engine
when `ids` is empty; otherwise one `where idField in ids` query whose result
rows are keyed by `row[idField]` in a `Map` (later rows overwrite earlier) and
mapped back to the caller's order with `null` for missing ids.  The
transaction and non-transaction branches of the source are identical
(`findByIds` never consults cache or loaders). -/
def findByIdsModel (tbl : String) (db : Except String (List Row)) (ctx : Ctx)
    (ids : List JsPrim) (idField : String) :
    Except String (List (Option Row)) × Ctx × List Ev :=
  if ids = [] then (.ok [], ctx, [])
  else
    match db with
    | .error e => (.error e, ctx, [.query])
    | .ok rows =>
        let result := rows.filter (fun r =>
          match lookupField r idField with
          | some v => ids.contains v
          | none => false)
        (.ok (ids.map (fun id => lastMatch result id idField)), ctx, [.query])

/-- `DataRepository.update(id, data, idField)`: record the write (a no-op
outside a transaction), invalidate immediately when not in a transaction,
then issue the update query.  The row payload (`serializeRow(data)`) does not
affect cache, loaders or the write-set and is not modelled. -/
def updateModel (tbl : String) (db : Except String (List Row)) (ctx : Ctx)
    (id : JsPrim) : Except String Unit × Ctx × List Ev :=
  let idStr := primToString id
  let ctx₁ := ctx.recordWriteCtx tbl idStr
  let ctx₂ :=
    if ctx₁.inTransaction then ctx₁
    else { ctx₁ with cache := ctx₁.cache.invalidateKeysForId tbl idStr }
  match db with
  | .error e => (.error e, ctx₂, [.query])
  | .ok _ => (.ok (), ctx₂, [.query])

/-! ## withTransaction  (src: model/BaseModel.ts, the version embedded at
BaseModel.test.ts lines 150-247)

`db.transaction().execute(cb)` opens a transaction, runs `cb`, commits when
`cb` resolves and rolls back (rethrowing the same error) when `cb` throws.
Inside `cb`, the source runs `fn` under a nested context (same cache object,
fresh empty write-set, fresh loader registry), captures `fn`'s outcome, and —
when `fn` did not throw — walks the write-set, splitting each entry on `':'`
into `[table, id]` and invalidating, *still inside the callback*, i.e. before
the engine's COMMIT.  The model takes `fn`'s outcome and the write-set its
execution produced, and returns the final result, the cache after the
callback, and the ordered trace of transaction events. -/

inductive TxEvent : Type
  | txBegin
  | invalidate (table id : String)
  | txCommit
  | txRollback
deriving DecidableEq, Repr

/-- `String.prototype.split(sep)` for a single-character separator, on the
character list (`"a::b"` gives `["a","","b"]`, `""` gives `[""]`). -/
def splitCharsAux (sep : Char) : List Char → List Char → List (List Char)
  | cur, [] => [cur.reverse]
  | cur, c :: cs =>
      if c = sep then cur.reverse :: splitCharsAux sep [] cs
      else splitCharsAux sep (c :: cur) cs

/-- `key.split(':')`. -/
def splitColon (s : String) : List String :=
  (splitCharsAux ':' [] s.toList).map String.mk

/-- `const [table, id] = key.split(':')` — JS keeps the first two segments;
a missing second segment is `undefined` and stringifies as `"undefined"`
inside `invalidateKeysForId`. -/
def splitKey (key : String) : String × String :=
  let parts := splitColon key
  (parts.headD "", (parts.drop 1).headD "undefined")

/-- Write-set accumulation across a transaction body: the final value of
`txState.writtenRecords` after the given sequence of `recordWrite(table, id)`
calls (a JS `Set`, insertion-ordered, duplicate-free). -/
def recordWrite (ws : List String) (table idStr : String) : List String :=
  let key := table ++ ":" ++ idStr
  if key ∈ ws then ws else ws ++ [key]

/-- JS `ToBoolean` of a value: `null`, `undefined`, `false`, `0`, `''` and
`0n` are falsy, every other primitive and every object/array (in particular
every `Error` instance) is truthy.  (`NaN` is also falsy in JS; numbers are
modelled as integers here, so it does not arise.) -/
def jsTruthy : JsValue → Bool
  | .prim .pNull => false
  | .prim .pUndef => false
  | .prim (.pBool b) => b
  | .prim (.pNum n) => !(n == 0)
  | .prim (.pStr s) => !(s == "")
  | .prim (.pBig n) => !(n == 0)
  | .arr _ => true
  | .obj _ => true

/-- The outcome of `withTransaction`: `result` is the settled promise — a
thrown JS value or a resolved value (`none` standing for JS `undefined`, which
the source's `result!` yields when `fn` threw a falsy value). -/
structure TxResult (α : Type) : Type where
  result : Except JsValue (Option α)
  cache : RequestCache
  trace : List TxEvent

/-- `BaseModel.withTransaction(fn)` given `fn`'s outcome and the write-set its
execution accumulated.  The source discriminates the two paths by the
TRUTHINESS of the caught value, not by whether a throw occurred
(`if (!error && ...)` at line 189, `if (error) throw error` at line 195 of the
embedded BaseModel): a normal completion leaves `error` as `undefined`
(falsy), so it commits; but a thrown FALSY value (`null`, `undefined`, `0`,
`''`, `false`, `0n`) also takes the commit path — the invalidation loop runs,
the callback returns `result!` (i.e. `undefined`), the engine commits, and the
thrown value is swallowed.  Only a truthy thrown value is re-thrown, rolling
the transaction back. -/
def withTransactionModel (α : Type) (fnOutcome : Except JsValue α) (writeSet : List String)
    (cache : RequestCache) : TxResult α :=
  let commitPath : Except JsValue (Option α) → TxResult α := fun res =>
    let pairs := writeSet.map splitKey
    { result := res
      cache := pairs.foldl (fun c p => c.invalidateKeysForId p.1 p.2) cache
      trace := .txBegin :: (pairs.map (fun p => .invalidate p.1 p.2) ++ [.txCommit]) }
  match fnOutcome with
  | .ok v => commitPath (.ok (some v))
  | .error e =>
      if jsTruthy e then { result := .error e, cache := cache, trace := [.txBegin, .txRollback] }
      else commitPath (.ok none)

/-! ## Interleaved independent `run` invocations  (src: context.ts)

`AsyncLocalStorage.run` gives each `run(fn)` its own `RequestState`; an
interleaving of two independent runs is a schedule of repository operations,
each tagged with the run it belongs to.  Each operation acts on its own run's
context through the repository functions above. -/

/-- A repository operation, the op language of one run. -/
inductive ROp : Type
  | opFind (w : List (String × JsPrim))
  | opFindById (id : JsPrim) (f : String)
  | opFindByIds (ids : List JsPrim) (f : String)
  | opUpdate (id : JsPrim)

/-- Apply one operation to one run's context. -/
def applyOp (tbl : String) (db : Except String (List Row)) (ctx : Ctx) : ROp → Ctx
  | .opFind w => (findModel tbl db ctx w).2.1
  | .opFindById id f => (findByIdModel tbl db ctx id f).2.1
  | .opFindByIds ids f => (findByIdsModel tbl db ctx ids f).2.1
  | .opUpdate id => (updateModel tbl db ctx id).2.1

/-- Run a sequence of operations within a single context. -/
def runOps (tbl : String) (db : Except String (List Row)) (ctx : Ctx) (ops : List ROp) : Ctx :=
  ops.foldl (applyOp tbl db) ctx

/-- Execute an interleaved schedule over the pair of contexts of two
independent `run` invocations: `true`-tagged steps act on the first run,
`false`-tagged steps on the second. -/
def runSched (tbl : String) (db : Except String (List Row)) :
    List (Bool × ROp) → Ctx × Ctx → Ctx × Ctx
  | [], w => w
  | (side, op) :: rest, (c₁, c₂) =>
      runSched tbl db rest
        (if side then (applyOp tbl db c₁ op, c₂) else (c₁, applyOp tbl db c₂ op))

/-- The operations a schedule assigns to one side. -/
def sideOps (side : Bool) (sched : List (Bool × ROp)) : List ROp :=
  (sched.filter (fun p => p.1 == side)).map Prod.snd

/-! ## Theorems -/

/-- The embedding reproduces the source's own unit-test expectations for
`makeCacheKey` (cache/makeCacheKey.test.ts): tagged scalars and sorted object
keys. -/
theorem makeCacheKey_unit_tests :
    makeCacheKey [.prim (.pStr "foo")] = "s:foo"
    ∧ makeCacheKey [.prim (.pNum 42)] = "n:42"
    ∧ makeCacheKey [.prim (.pBool true)] = "b:true"
    ∧ makeCacheKey [.obj [("x", .prim (.pNum 1)), ("y", .prim (.pNum 2))]]
        = "o:\x7b\"x\":1,\"y\":2\x7d"
    ∧ makeCacheKey [.obj [("y", .prim (.pNum 2)), ("x", .prim (.pNum 1))]]
        = "o:\x7b\"x\":1,\"y\":2\x7d" := by
  refine ⟨by decide, by decide, by decide, by decide, by decide⟩

theorem charListLe_total : ∀ as bs, charListLe as bs = true ∨ charListLe bs as = true
  | [], _ => Or.inl rfl
  | _ :: _, [] => Or.inr rfl
  | a :: as, b :: bs => by
      simp only [charListLe]
      rcases lt_trichotomy a b with h | h | h
      · simp [h]
      · subst h
        simp only [lt_irrefl, if_false]
        exact charListLe_total as bs
      · simp [h, not_lt_of_gt h]

theorem charListLe_trans :
    ∀ as bs cs, charListLe as bs = true → charListLe bs cs = true → charListLe as cs = true
  | [], _, _ => by intro _ _; rfl
  | _ :: _, [], _ => by intro h _; simp [charListLe] at h
  | _ :: _, _ :: _, [] => by intro _ h; simp [charListLe] at h
  | a :: as, b :: bs, c :: cs => by
      intro h₁ h₂
      simp only [charListLe] at h₁ h₂ ⊢
      by_cases hab : a < b
      · by_cases hbc : b < c
        · simp [lt_trans hab hbc]
        · by_cases hcb : c < b
          · simp [hab, hbc, hcb] at h₂
          · have : b = c := le_antisymm (not_lt.mp hcb) (not_lt.mp hbc)
            subst this
            simp [hab]
      · by_cases hba : b < a
        · simp [hab, hba] at h₁
        · have hab' : a = b := le_antisymm (not_lt.mp hba) (not_lt.mp hab)
          subst hab'
          simp only [lt_irrefl, if_false] at h₁
          by_cases hbc : a < c
          · simp [hbc]
          · by_cases hcb : c < a
            · simp [hbc, hcb] at h₂
            · simp only [if_neg hbc, if_neg hcb] at h₂ ⊢
              exact charListLe_trans as bs cs h₁ h₂

theorem charListLe_antisymm :
    ∀ as bs, charListLe as bs = true → charListLe bs as = true → as = bs
  | [], [] => by intro _ _; rfl
  | [], _ :: _ => by intro _ h; simp [charListLe] at h
  | _ :: _, [] => by intro h _; simp [charListLe] at h
  | a :: as, b :: bs => by
      intro h₁ h₂
      simp only [charListLe] at h₁ h₂
      rcases lt_trichotomy a b with h | h | h
      · simp [h, not_lt_of_gt h] at h₂
      · subst h
        simp only [lt_irrefl, if_false] at h₁ h₂
        rw [charListLe_antisymm as bs h₁ h₂]
      · simp [h, not_lt_of_gt h] at h₁

theorem keyLe_total : ∀ a b : String × String, keyLe a b ∨ keyLe b a :=
  fun a b => charListLe_total a.1.toList b.1.toList

theorem keyLe_trans : ∀ a b c : String × String, keyLe a b → keyLe b c → keyLe a c :=
  fun a b c h₁ h₂ => charListLe_trans a.1.toList b.1.toList c.1.toList h₁ h₂

theorem keyLe_antisymm_fst {a b : String × String} (h₁ : keyLe a b) (h₂ : keyLe b a) :
    a.1 = b.1 := by
  have := charListLe_antisymm a.1.toList b.1.toList h₁ h₂
  exact String.ext this

theorem charListLe_refl : ∀ as, charListLe as as = true
  | [] => rfl
  | a :: as => by simp only [charListLe, lt_irrefl, if_false]; exact charListLe_refl as

theorem keyLe_refl (a : String × String) : keyLe a a :=
  charListLe_refl a.1.toList

/-- Two key-sorted pair lists that are permutations of each other and have
duplicate-free keys are equal. -/
theorem sorted_keyNodup_perm_eq :
    ∀ {l₁ l₂ : List (String × String)}, l₁.Perm l₂ →
      l₁.Sorted keyLe → l₂.Sorted keyLe → (l₁.map Prod.fst).Nodup → l₁ = l₂
  | [], l₂, h, _, _, _ => h.nil_eq
  | a :: t₁, [], h, _, _, _ => by
      exact absurd h.symm.nil_eq (by simp)
  | a :: t₁, b :: t₂, h, hs₁, hs₂, hn => by
      obtain ⟨ha₁, hs₁'⟩ := List.sorted_cons.mp hs₁
      obtain ⟨ha₂, hs₂'⟩ := List.sorted_cons.mp hs₂
      obtain ⟨hna, hn'⟩ := List.nodup_cons.mp hn
      have hab : a = b := by
        have hmem₁ : a ∈ b :: t₂ := h.subset (List.mem_cons_self a t₁)
        have hmem₂ : b ∈ a :: t₁ := h.symm.subset (List.mem_cons_self b t₂)
        rcases List.mem_cons.mp hmem₂ with hb | hb
        · exact hb.symm
        · rcases List.mem_cons.mp hmem₁ with ha | ha
          · exact ha
          · have h₁ : keyLe a b := ha₁ b hb
            have h₂ : keyLe b a := ha₂ a ha
            have : a.1 = b.1 := keyLe_antisymm_fst h₁ h₂
            exact absurd (this ▸ List.mem_map_of_mem Prod.fst hb) hna
      subst hab
      have ht : t₁.Perm t₂ := h.cons_inv
      rw [sorted_keyNodup_perm_eq ht hs₁' hs₂' hn']

theorem stableStringifyFields_eq_map (fs : List (String × JsValue)) :
    stableStringifyFields fs = fs.map (fun p => (p.1, stableStringifyWithBigInt p.2)) := by
  induction fs with
  | nil => rfl
  | cons p fs ih => cases p; simp [stableStringifyFields, ih]

/-- Object serialization is insensitive to field order (for duplicate-free
keys), because the source sorts keys before encoding. -/
theorem stableStringify_obj_perm (fs₁ fs₂ : List (String × JsValue))
    (hp : fs₁.Perm fs₂) (hn : (fs₁.map Prod.fst).Nodup) :
    stableStringifyWithBigInt (.obj fs₁) = stableStringifyWithBigInt (.obj fs₂) := by
  have hm : (stableStringifyFields fs₁).Perm (stableStringifyFields fs₂) := by
    rw [stableStringifyFields_eq_map, stableStringifyFields_eq_map]
    exact hp.map _
  have hkeys : ((stableStringifyFields fs₁).map Prod.fst).Nodup := by
    rw [stableStringifyFields_eq_map, List.map_map]
    exact hn
  have hsorted₁ : (sortByKey (stableStringifyFields fs₁)).Sorted keyLe :=
    @List.sorted_insertionSort _ keyLe _ ⟨keyLe_total⟩ ⟨keyLe_trans⟩ _
  have hsorted₂ : (sortByKey (stableStringifyFields fs₂)).Sorted keyLe :=
    @List.sorted_insertionSort _ keyLe _ ⟨keyLe_total⟩ ⟨keyLe_trans⟩ _
  have hperm : (sortByKey (stableStringifyFields fs₁)).Perm
      (sortByKey (stableStringifyFields fs₂)) :=
    ((List.perm_insertionSort keyLe _).trans hm).trans (List.perm_insertionSort keyLe _).symm
  have hnod : ((sortByKey (stableStringifyFields fs₁)).map Prod.fst).Nodup :=
    (((List.perm_insertionSort keyLe _).map Prod.fst).nodup_iff).mpr hkeys
  have : sortByKey (stableStringifyFields fs₁) = sortByKey (stableStringifyFields fs₂) :=
    sorted_keyNodup_perm_eq hperm hsorted₁ hsorted₂ hnod
  simp only [stableStringifyWithBigInt, this]

/-- C6, counterexample.  The claim states that argument tuples that are not
logically equal never produce the same string.  But `makeCacheKey` embeds
top-level strings raw after an `'s:'` tag and joins the encoded parts with
`':'`, so the single-string tuple `('a:s:b')` and the two-string tuple
`('a','b')` — tuples of different lengths, hence not logically equal — both
encode to `"s:a:s:b"`. -/
theorem claimC6_counterexample :
    makeCacheKey [.prim (.pStr "a:s:b")]
        = makeCacheKey [.prim (.pStr "a"), .prim (.pStr "b")]
    ∧ ([JsValue.prim (.pStr "a:s:b")]).length
        ≠ ([JsValue.prim (.pStr "a"), JsValue.prim (.pStr "b")]).length :=
  ⟨by decide, by decide⟩

/-- C6, amended.  `makeCacheKey` is a deterministic function; logically equal
inputs produce identical strings — in particular object key order is
irrelevant (keys are sorted recursively) — and the per-type tags keep the
spec's exemplar pairs apart: `'1'` vs `1`, `[1,2]` vs `[2,1]`, and a bigint vs
the equal-looking number.  However the encoding is not injective on all
argument tuples: strings containing `':'`-separated tag material can make
distinct tuples collide (see `claimC6_counterexample`), so collision
resistance holds only for the tagged scalar shapes the spec enumerates, not
for arbitrary unequal tuples. -/
theorem claimC6_cacheKey_stability :
    (∀ fs₁ fs₂ : List (String × JsValue), fs₁.Perm fs₂ → (fs₁.map Prod.fst).Nodup →
        makeCacheKey [.obj fs₁] = makeCacheKey [.obj fs₂])
    ∧ makeCacheKey [.prim (.pStr "1")] ≠ makeCacheKey [.prim (.pNum 1)]
    ∧ makeCacheKey [.arr [.prim (.pNum 1), .prim (.pNum 2)]]
        ≠ makeCacheKey [.arr [.prim (.pNum 2), .prim (.pNum 1)]]
    ∧ makeCacheKey [.prim (.pBig 1)] ≠ makeCacheKey [.prim (.pNum 1)] := by
  refine ⟨fun fs₁ fs₂ hp hn => ?_, by decide, by decide, by decide⟩
  simp only [makeCacheKey, List.map, makeCacheKeyPart]
  rw [stableStringify_obj_perm fs₁ fs₂ hp hn]

/-- Witness for `claimC6_cacheKey_stability`: the spec's own example,
`makeCacheKey(\x7bx:1,y:2\x7d) = makeCacheKey(\x7by:2,x:1\x7d)`. -/
theorem claimC6_witness :
    ([("x", JsValue.prim (.pNum 1)), ("y", JsValue.prim (.pNum 2))]).Perm
        [("y", JsValue.prim (.pNum 2)), ("x", JsValue.prim (.pNum 1))]
    ∧ makeCacheKey [.obj [("x", .prim (.pNum 1)), ("y", .prim (.pNum 2))]]
        = makeCacheKey [.obj [("y", .prim (.pNum 2)), ("x", .prim (.pNum 1))]] := by
  have hp : ([("x", JsValue.prim (.pNum 1)), ("y", JsValue.prim (.pNum 2))]).Perm
      [("y", JsValue.prim (.pNum 2)), ("x", JsValue.prim (.pNum 1))] :=
    List.Perm.swap ("y", JsValue.prim (.pNum 2)) ("x", JsValue.prim (.pNum 1)) []
  exact ⟨hp, claimC6_cacheKey_stability.1 _ _ hp (by decide)⟩

/-- C1, failing-input evaluation.  The claim (and the spec, and the source's
own comments `for post-commit invalidation only` / `On commit, surgically
invalidate`) requires the commit to happen first and cache invalidation only
after the commit succeeds.  In the source, however, the invalidation loop runs
inside the callback passed to `db.transaction().execute`, and Kysely issues
COMMIT only after that callback resolves: for a successful `fn` that recorded
a write to `users:1`, the transaction trace carries the `invalidate` event
strictly before the `txCommit` event. -/
theorem claimC1_invalidation_precedes_commit :
    (withTransactionModel Unit (.ok ()) (recordWrite [] "users" "1")
        RequestCache.emptyCache).trace
      = [.txBegin, .invalidate "users" "1", .txCommit] := by decide

/-- C2, counterexample.  The claim quantifies over EVERY throwing callback,
but the source discriminates by truthiness: `if (!error && ...)` runs the
invalidation loop and `if (error) throw error` re-throws — so a callback that
does `throw null` after recording a write to `users:1` takes the commit path:
the recorded write IS invalidated, the transaction COMMITS instead of rolling
back, and the thrown `null` is swallowed (the caller resolves with
`undefined`), contradicting all three parts of the claim at once. -/
theorem claimC2_counterexample :
    (withTransactionModel Unit (.error (JsValue.prim .pNull)) (recordWrite [] "users" "1")
        RequestCache.emptyCache).trace
      = [.txBegin, .invalidate "users" "1", .txCommit]
    ∧ (withTransactionModel Unit (.error (JsValue.prim .pNull)) (recordWrite [] "users" "1")
        RequestCache.emptyCache).result = .ok none
    ∧ TxEvent.txRollback ∉
        (withTransactionModel Unit (.error (JsValue.prim .pNull)) (recordWrite [] "users" "1")
          RequestCache.emptyCache).trace :=
  ⟨by decide, by rfl, by decide⟩

/-- C2, amended.  When the transaction callback throws a TRUTHY value (every
`Error` object and every truthy primitive is such): the cache is left exactly
as it was (no invalidation event occurs at all), the engine rolls back, and
the very value the callback threw is delivered unwrapped to the caller of
`withTransaction`.  A thrown falsy value (`null`, `undefined`, `0`, `''`,
`false`, `0n`) is instead treated as success by the source's truthiness
sentinel: writes are invalidated, the transaction commits, and the caller
receives `undefined` (see `claimC2_counterexample`). -/
theorem claimC2_rollback_propagation (α : Type) (e : JsValue) (ws : List String)
    (c : RequestCache) (he : jsTruthy e = true) :
    (withTransactionModel α (.error e) ws c).result = .error e
    ∧ (withTransactionModel α (.error e) ws c).cache = c
    ∧ (∀ t i, TxEvent.invalidate t i ∉ (withTransactionModel α (.error e) ws c).trace)
    ∧ (withTransactionModel α (.error e) ws c).trace = [.txBegin, .txRollback] := by
  have hmodel : withTransactionModel α (.error e) ws c
      = { result := .error e, cache := c, trace := [.txBegin, .txRollback] } := by
    simp [withTransactionModel, he]
  refine ⟨by rw [hmodel], by rw [hmodel], ?_, by rw [hmodel]⟩
  intro t i
  rw [hmodel]
  simp

/-- Witness for `claimC2_rollback_propagation`: a thrown truthy string. -/
theorem claimC2_witness :
    jsTruthy (JsValue.prim (.pStr "boom")) = true
    ∧ ((withTransactionModel Unit (.error (JsValue.prim (.pStr "boom"))) ["users:1"]
          RequestCache.emptyCache).result = .error (JsValue.prim (.pStr "boom"))
      ∧ (withTransactionModel Unit (.error (JsValue.prim (.pStr "boom"))) ["users:1"]
          RequestCache.emptyCache).cache = RequestCache.emptyCache
      ∧ (∀ t i, TxEvent.invalidate t i ∉
          (withTransactionModel Unit (.error (JsValue.prim (.pStr "boom"))) ["users:1"]
            RequestCache.emptyCache).trace)
      ∧ (withTransactionModel Unit (.error (JsValue.prim (.pStr "boom"))) ["users:1"]
          RequestCache.emptyCache).trace = [.txBegin, .txRollback]) :=
  ⟨by decide,
   claimC2_rollback_propagation Unit (JsValue.prim (.pStr "boom")) ["users:1"]
     RequestCache.emptyCache (by decide)⟩

/-- C10.  Write-set entries are the single string `table + ':' + id`,
deduplicated as a JS `Set` (recording the same pair twice leaves one entry),
and commit-time processing splits each entry on `':'`, keeping only the first
two segments — so an id whose string form contains a colon is invalidated
under just the substring before its first colon: recording `('users','1:2')`
stores `"users:1:2"` and commits invalidate `('users','1')`. -/
theorem claimC10_writeSet_encoding :
    (∀ ws t i, recordWrite (recordWrite ws t i) t i = recordWrite ws t i)
    ∧ recordWrite [] "users" "1:2" = ["users:1:2"]
    ∧ splitKey "users:1:2" = ("users", "1")
    ∧ (withTransactionModel Unit (.ok ()) (recordWrite [] "users" "1:2")
          RequestCache.emptyCache).trace
        = [.txBegin, .invalidate "users" "1", .txCommit] := by
  refine ⟨fun ws t i => ?_, by decide, by decide, by decide⟩
  unfold recordWrite
  by_cases h : (t ++ ":" ++ i) ∈ ws
  · simp [h]
  · simp [h]

/-- C3, counterexample.  The claim asserts that inside a transaction every
`find`, `findById` AND `findByIds` call "issues a fresh query directly
against the transactional handle every time", but `findByIds([])`
short-circuits on its first line (`repository.ts` line 125) and issues no
query at all — in a transaction context exactly as outside one. -/
theorem claimC3_counterexample :
    Ctx.inTransaction ⟨some [], RequestCache.emptyCache, []⟩ = true
    ∧ (findByIdsModel "users" (.ok [[("id", .pNum 1)]])
        ⟨some [], RequestCache.emptyCache, []⟩ [] "id").2.2 = []
    ∧ ¬((findByIdsModel "users" (.ok [[("id", .pNum 1)]])
        ⟨some [], RequestCache.emptyCache, []⟩ [] "id").2.2 = [Ev.query])
    ∧ (findByIdsModel "users" (.ok [[("id", .pNum 1)]])
        ⟨some [], RequestCache.emptyCache, []⟩ [] "id").1 = .ok [] :=
  ⟨by decide, by decide, by decide, by rfl⟩

/-- C3, amended.  In a transaction context, `find`, `findById` and
`findByIds` leave the context (cache, loader registry and write-set)
untouched and never read or write the `RequestCache` or any `DataLoader`;
`find` and `findById` issue a fresh direct engine query on every call, and
`findByIds` does so for every non-empty id list, while `findByIds([])`
returns `[]` without issuing any query (see `claimC3_counterexample`). -/
theorem claimC3_transaction_bypass (tbl : String) (db : Except String (List Row))
    (ctx : Ctx) (w : List (String × JsPrim)) (id : JsPrim) (ids : List JsPrim)
    (f : String) (h : ctx.inTransaction = true) :
    (findModel tbl db ctx w).2.1 = ctx
    ∧ (findModel tbl db ctx w).2.2 = [.query]
    ∧ (findByIdModel tbl db ctx id f).2.1 = ctx
    ∧ (findByIdModel tbl db ctx id f).2.2 = [.query]
    ∧ (findByIdsModel tbl db ctx ids f).2.1 = ctx
    ∧ (ids ≠ [] → (findByIdsModel tbl db ctx ids f).2.2 = [.query])
    ∧ (ids = [] → (findByIdsModel tbl db ctx ids f).2.2 = []) := by
  by_cases hids : ids = [] <;> cases db <;>
    simp [findModel, findByIdModel, findByIdsModel, h, hids]

/-- Witness for `claimC3_transaction_bypass` at a concrete transaction
context and store. -/
theorem claimC3_witness :
    (Ctx.inTransaction ⟨some [], RequestCache.emptyCache, []⟩ = true)
    ∧ ((findModel "users" (.ok [[("id", .pNum 1)]])
          ⟨some [], RequestCache.emptyCache, []⟩ []).2.1
        = ⟨some [], RequestCache.emptyCache, []⟩
      ∧ (findModel "users" (.ok [[("id", .pNum 1)]])
          ⟨some [], RequestCache.emptyCache, []⟩ []).2.2 = [.query]
      ∧ (findByIdModel "users" (.ok [[("id", .pNum 1)]])
          ⟨some [], RequestCache.emptyCache, []⟩ (.pNum 1) "id").2.1
        = ⟨some [], RequestCache.emptyCache, []⟩
      ∧ (findByIdModel "users" (.ok [[("id", .pNum 1)]])
          ⟨some [], RequestCache.emptyCache, []⟩ (.pNum 1) "id").2.2 = [.query]
      ∧ (findByIdsModel "users" (.ok [[("id", .pNum 1)]])
          ⟨some [], RequestCache.emptyCache, []⟩ [.pNum 1] "id").2.1
        = ⟨some [], RequestCache.emptyCache, []⟩
      ∧ (([JsPrim.pNum 1] : List JsPrim) ≠ [] →
          (findByIdsModel "users" (.ok [[("id", .pNum 1)]])
            ⟨some [], RequestCache.emptyCache, []⟩ [.pNum 1] "id").2.2 = [.query])
      ∧ (([JsPrim.pNum 1] : List JsPrim) = [] →
          (findByIdsModel "users" (.ok [[("id", .pNum 1)]])
            ⟨some [], RequestCache.emptyCache, []⟩ [.pNum 1] "id").2.2 = [])) :=
  ⟨by decide,
   claimC3_transaction_bypass "users" (.ok [[("id", .pNum 1)]])
     ⟨some [], RequestCache.emptyCache, []⟩ [] (.pNum 1) [.pNum 1] "id" (by decide)⟩

/-! ### DataLoader lemmas -/

theorem map_fst_update {K C : Type} [DecidableEq K] (q : List (K × List C)) (c : C) (k : K) :
    (q.map (fun e => if e.1 = k then (e.1, e.2 ++ [c]) else e)).map Prod.fst
      = q.map Prod.fst := by
  induction q with
  | nil => rfl
  | cons p rest ih =>
      simp only [List.map_cons, ih]
      by_cases hp : p.1 = k <;> simp [hp]

theorem enqueue_keys {K C : Type} [DecidableEq K] (q : List (K × List C)) (c : C) (k : K) :
    (enqueue q c k).map Prod.fst
      = if k ∈ q.map Prod.fst then q.map Prod.fst else q.map Prod.fst ++ [k] := by
  unfold enqueue
  by_cases h : k ∈ q.map Prod.fst
  · simp only [h, if_true]
    exact map_fst_update q c k
  · simp [h]

theorem foldl_enqueue_keys {K C : Type} [DecidableEq K] (loads : List (C × K)) :
    ∀ q : List (K × List C),
      ((loads.foldl (fun q p => enqueue q p.1 p.2) q).map Prod.fst)
        = loads.foldl (fun acc p => if p.2 ∈ acc then acc else acc ++ [p.2])
            (q.map Prod.fst) := by
  induction loads with
  | nil => intro q; rfl
  | cons p rest ih =>
      intro q
      simp only [List.foldl_cons]
      rw [ih (enqueue q p.1 p.2), enqueue_keys]

/-- The key list a dispatch cycle passes to the batch function is the
first-seen-order deduplication of the loaded keys. -/
theorem buildQueue_keys {K C : Type} [DecidableEq K] (loads : List (C × K)) :
    (buildQueue loads).map Prod.fst = dedupFS (loads.map Prod.snd) := by
  unfold buildQueue dedupFS
  rw [foldl_enqueue_keys loads [], List.foldl_map]
  rfl

theorem dedupFS_nodup {K : Type} [DecidableEq K] (ks : List K) : (dedupFS ks).Nodup := by
  suffices h : ∀ acc : List K, acc.Nodup →
      (ks.foldl (fun acc k => if k ∈ acc then acc else acc ++ [k]) acc).Nodup from
    h [] List.nodup_nil
  induction ks with
  | nil => intro acc h; exact h
  | cons k rest ih =>
      intro acc h
      simp only [List.foldl_cons]
      by_cases hk : k ∈ acc
      · simpa [hk] using ih acc h
      · refine ih _ ?_
        simp [hk, List.nodup_append, h]

theorem enqueue_mem_self {K C : Type} [DecidableEq K] (q : List (K × List C)) (c : C) (k : K) :
    ∃ cs, (k, cs) ∈ enqueue q c k ∧ c ∈ cs := by
  unfold enqueue
  by_cases h : k ∈ q.map Prod.fst
  · obtain ⟨p, hp, hpk⟩ := List.mem_map.mp h
    refine ⟨p.2 ++ [c], ?_, by simp⟩
    simp only [h, if_true]
    have : (fun e : K × List C => if e.1 = k then (e.1, e.2 ++ [c]) else e) p
        = (k, p.2 ++ [c]) := by
      simp [hpk]
    exact this ▸ List.mem_map_of_mem _ hp
  · exact ⟨[c], by simp [h], by simp⟩

theorem enqueue_mem_mono {K C : Type} [DecidableEq K] (q : List (K × List C))
    (c₁ : C) (k₁ : K) {k : K} {cs : List C} {c : C}
    (hq : (k, cs) ∈ q) (hc : c ∈ cs) :
    ∃ cs', (k, cs') ∈ enqueue q c₁ k₁ ∧ c ∈ cs' := by
  unfold enqueue
  by_cases h : k₁ ∈ q.map Prod.fst
  · simp only [h, if_true]
    by_cases hk : k = k₁
    · refine ⟨cs ++ [c₁], ?_, by simp [hc]⟩
      have : (fun e : K × List C => if e.1 = k₁ then (e.1, e.2 ++ [c₁]) else e) (k, cs)
          = (k, cs ++ [c₁]) := by simp [hk]
      exact this ▸ List.mem_map_of_mem _ hq
    · refine ⟨cs, ?_, hc⟩
      have : (fun e : K × List C => if e.1 = k₁ then (e.1, e.2 ++ [c₁]) else e) (k, cs)
          = (k, cs) := by simp [hk]
      exact this ▸ List.mem_map_of_mem _ hq
  · exact ⟨cs, by simp [h, List.mem_append, hq], hc⟩

/-- Every caller queued in a tick ends up in some entry of the built queue. -/
theorem buildQueue_mem {K C : Type} [DecidableEq K] (loads : List (C × K)) (c : C) (k : K)
    (hm : (c, k) ∈ loads) : ∃ cs, (k, cs) ∈ buildQueue loads ∧ c ∈ cs := by
  unfold buildQueue
  suffices h : ∀ q : List (K × List C),
      ((c, k) ∈ loads ∨ ∃ cs, (k, cs) ∈ q ∧ c ∈ cs) →
      ∃ cs, (k, cs) ∈ loads.foldl (fun q p => enqueue q p.1 p.2) q ∧ c ∈ cs from
    h [] (Or.inl hm)
  clear hm
  induction loads with
  | nil =>
      intro q h
      rcases h with h | h
      · exact absurd h (List.not_mem_nil _)
      · exact h
  | cons p rest ih =>
      intro q h
      simp only [List.foldl_cons]
      refine ih (enqueue q p.1 p.2) ?_
      rcases h with h | ⟨cs, hq, hc⟩
      · rcases List.mem_cons.mp h with h | h
        · right
          have hp : p = (p.1, p.2) := rfl
          rw [show c = p.1 from congrArg Prod.fst h.symm ▸ rfl,
              show k = p.2 from congrArg Prod.snd h.symm ▸ rfl]
          exact enqueue_mem_self q p.1 p.2
        · exact Or.inl h
      · exact Or.inr (enqueue_mem_mono q p.1 p.2 hq hc)

theorem resolveFrom_mem {K C V E : Type} (results : List (Option V)) :
    ∀ (q : List (K × List C)) (j i : Nat) (k : K) (cs : List C) (c : C),
      q.get? i = some (k, cs) → c ∈ cs →
      (c, (Outcome.resolved ((results.get? (j + i)).getD none) : Outcome V E))
        ∈ resolveFrom results j q := by
  intro q
  induction q with
  | nil => intro j i k cs c h; simp at h
  | cons p rest ih =>
      intro j i k cs c h hc
      cases i with
      | zero =>
          simp only [List.get?_cons_zero, Option.some.injEq] at h
          subst h
          simp only [resolveFrom, Nat.add_zero]
          exact List.mem_append_left _ (List.mem_map_of_mem _ hc)
      | succ i =>
          simp only [List.get?_cons_succ] at h
          have := ih (j + 1) i k cs c h hc
          simp only [resolveFrom]
          refine List.mem_append_right _ ?_
          have harith : j + 1 + i = j + (i + 1) := by omega
          rwa [harith] at this

/-- C4.  Within one dispatch cycle the batch function receives exactly the
first-enqueue-order deduplicated key list (so it is invoked once for all
queued callers), the key list is duplicate-free (so each key has exactly one
position), and every waiting caller is resolved with `results[i] ?? null` for
the position `i` of its key — hence callers that queued the same key before
dispatch all receive the same value. -/
theorem claimC4_batch_coalescing {K C V E : Type} [DecidableEq K]
    (loads : List (C × K)) (batch : List K → Except E (List (Option V)))
    (c : C) (k : K) (results : List (Option V))
    (hb : batch ((buildQueue loads).map Prod.fst) = .ok results)
    (hm : (c, k) ∈ loads) :
    (buildQueue loads).map Prod.fst = dedupFS (loads.map Prod.snd)
    ∧ ((buildQueue loads).map Prod.fst).Nodup
    ∧ ∃ i, ((buildQueue loads).map Prod.fst).get? i = some k
        ∧ (c, Outcome.resolved ((results.get? i).getD none)) ∈ tickOutcomes loads batch := by
  refine ⟨buildQueue_keys loads, ?_, ?_⟩
  · rw [buildQueue_keys loads]; exact dedupFS_nodup _
  · obtain ⟨cs, hq, hc⟩ := buildQueue_mem loads c k hm
    obtain ⟨i, hi⟩ := List.get?_of_mem hq
    refine ⟨i, ?_, ?_⟩
    · rw [List.get?_map, hi]; rfl
    · have hmem : (c, (Outcome.resolved ((results.get? (0 + i)).getD none) : Outcome V E))
          ∈ resolveFrom results 0 (buildQueue loads) :=
        resolveFrom_mem results (buildQueue loads) 0 i k cs c hi hc
      show (c, Outcome.resolved ((results.get? i).getD none))
          ∈ dispatchModel (buildQueue loads) (batch ((buildQueue loads).map Prod.fst))
      rw [hb]
      simpa [dispatchModel] using hmem

/-- Witness for `claimC4_batch_coalescing`: three same-tick callers, two
distinct keys, caller `2` sharing key `10` with caller `0`. -/
theorem claimC4_witness :
    ((2, 10) ∈ ([(0, 10), (1, 20), (2, 10)] : List (Nat × Nat)))
    ∧ (fun ks : List Nat =>
          (Except.ok (ks.map (fun n => some (2 * n))) : Except String (List (Option Nat))))
        ((buildQueue [(0, 10), (1, 20), (2, 10)]).map Prod.fst)
        = Except.ok [some 20, some 40]
    ∧ ((buildQueue [(0, 10), (1, 20), (2, 10)]).map Prod.fst
          = dedupFS (([(0, 10), (1, 20), (2, 10)] : List (Nat × Nat)).map Prod.snd)
        ∧ ((buildQueue ([(0, 10), (1, 20), (2, 10)] : List (Nat × Nat))).map Prod.fst).Nodup
        ∧ ∃ i, ((buildQueue ([(0, 10), (1, 20), (2, 10)] : List (Nat × Nat))).map
              Prod.fst).get? i = some 10
            ∧ (2, Outcome.resolved ((([some 20, some 40] : List (Option Nat)).get? i).getD none))
                ∈ tickOutcomes [(0, 10), (1, 20), (2, 10)]
                    (fun ks =>
                      (Except.ok (ks.map (fun n => some (2 * n)))
                        : Except String (List (Option Nat))))) :=
  ⟨by decide, by rfl,
   claimC4_batch_coalescing [(0, 10), (1, 20), (2, 10)]
     (fun ks => (Except.ok (ks.map (fun n => some (2 * n))) : Except String (List (Option Nat))))
     2 10 [some 20, some 40] (by rfl) (by decide)⟩

theorem dispatchError_mem {K C V E : Type} (q : List (K × List C)) (e : E) :
    ∀ {k : K} {cs : List C} {c : C}, (k, cs) ∈ q → c ∈ cs →
      (c, (Outcome.rejected e : Outcome V E))
        ∈ q.foldr (fun p acc => p.2.map (fun c => (c, Outcome.rejected e)) ++ acc) [] := by
  induction q with
  | nil => intro k cs c hq; simp at hq
  | cons p rest ih =>
      intro k cs c hq hc
      simp only [List.foldr_cons]
      rcases List.mem_cons.mp hq with h | h
      · refine List.mem_append_left _ ?_
        have hc2 : c ∈ p.2 := by rw [← h]; exact hc
        exact List.mem_map_of_mem _ hc2
      · exact List.mem_append_right _ (ih h hc)

theorem dispatchError_all {K C V E : Type} (q : List (K × List C)) (e : E) :
    ∀ x ∈ q.foldr (fun p acc =>
        p.2.map (fun c => (c, (Outcome.rejected e : Outcome V E))) ++ acc) [],
      x.2 = Outcome.rejected e := by
  induction q with
  | nil => intro x hx; simp at hx
  | cons p rest ih =>
      intro x hx
      simp only [List.foldr_cons] at hx
      rcases List.mem_append.mp hx with h | h
      · obtain ⟨c, _, hcx⟩ := List.mem_map.mp h
        rw [← hcx]
      · exact ih x h

/-- C7.  When the batch function of a dispatch cycle rejects, every caller
waiting on that cycle — whatever key it queued — receives exactly that error,
no caller is resolved, and the repository populates no cache entry from the
failed dispatch: a non-transactional `findById` whose load rejects propagates
the error, leaves the cache untouched, and emits no `cacheSet` event. -/
theorem claimC7_batch_failure {K C V E : Type} [DecidableEq K]
    (loads : List (C × K)) (batch : List K → Except E (List (Option V))) (e : E)
    (hb : batch ((buildQueue loads).map Prod.fst) = .error e)
    (tbl : String) (ctx : Ctx) (id : JsPrim) (f : String) (e' : String)
    (hctx : ctx.inTransaction = false)
    (hmiss : ctx.cache.hasKey (findByIdCacheKey tbl id f) = false) :
    (∀ p ∈ loads, (p.1, (Outcome.rejected e : Outcome V E)) ∈ tickOutcomes loads batch)
    ∧ (∀ x ∈ tickOutcomes loads batch, x.2 = (Outcome.rejected e : Outcome V E))
    ∧ (findByIdModel tbl (.error e') ctx id f).1 = .error e'
    ∧ (findByIdModel tbl (.error e') ctx id f).2.1.cache = ctx.cache
    ∧ (∀ kk, Ev.cacheSet kk ∉ (findByIdModel tbl (.error e') ctx id f).2.2) := by
  have hrepo :
      (findByIdModel tbl (.error e') ctx id f).1 = .error e'
      ∧ (findByIdModel tbl (.error e') ctx id f).2.1.cache = ctx.cache
      ∧ (∀ kk, Ev.cacheSet kk ∉ (findByIdModel tbl (.error e') ctx id f).2.2) := by
    by_cases hl : (tbl ++ ":" ++ f) ∈ ctx.loaderKeys <;>
      simp [findByIdModel, hctx, hmiss, addLoader, hl]
  refine ⟨?_, ?_, hrepo.1, hrepo.2.1, hrepo.2.2⟩
  · intro p hp
    obtain ⟨cs, hq, hc⟩ := buildQueue_mem loads p.1 p.2 (by simpa using hp)
    show (p.1, Outcome.rejected e)
        ∈ dispatchModel (buildQueue loads) (batch ((buildQueue loads).map Prod.fst))
    rw [hb]
    simp only [dispatchModel]
    exact dispatchError_mem (buildQueue loads) e hq hc
  · intro x hx
    have hx' : x ∈ dispatchModel (buildQueue loads)
        (batch ((buildQueue loads).map Prod.fst)) := hx
    rw [hb] at hx'
    simp only [dispatchModel] at hx'
    exact dispatchError_all (buildQueue loads) e x hx'

/-- Witness for `claimC7_batch_failure`: two callers with distinct keys, a
batch function that always rejects, against a fresh non-transactional
context. -/
theorem claimC7_witness :
    ((fun _ : List Nat => (Except.error "boom" : Except String (List (Option Nat))))
        ((buildQueue [(0, 1), (1, 2)]).map Prod.fst) = Except.error "boom")
    ∧ (Ctx.inTransaction (runFreshCtx none) = false)
    ∧ ((runFreshCtx none).cache.hasKey (findByIdCacheKey "users" (.pNum 1) "id") = false)
    ∧ ((∀ p ∈ ([(0, 1), (1, 2)] : List (Nat × Nat)),
          (p.1, (Outcome.rejected "boom" : Outcome Nat String))
            ∈ tickOutcomes [(0, 1), (1, 2)] (fun _ => Except.error "boom"))
      ∧ (∀ x ∈ tickOutcomes ([(0, 1), (1, 2)] : List (Nat × Nat))
            (fun _ => (Except.error "boom" : Except String (List (Option Nat)))),
          x.2 = Outcome.rejected "boom")
      ∧ (findByIdModel "users" (.error "db down") (runFreshCtx none) (.pNum 1) "id").1
          = .error "db down"
      ∧ (findByIdModel "users" (.error "db down") (runFreshCtx none) (.pNum 1) "id").2.1.cache
          = (runFreshCtx none).cache
      ∧ (∀ kk, Ev.cacheSet kk ∉
          (findByIdModel "users" (.error "db down") (runFreshCtx none) (.pNum 1) "id").2.2)) :=
  ⟨by rfl, by decide, by decide,
   claimC7_batch_failure [(0, 1), (1, 2)] (fun _ => Except.error "boom") "boom" (by rfl)
     "users" (runFreshCtx none) (.pNum 1) "id" "db down" (by decide) (by decide)⟩

/-! ### RequestCache reverse-index lemmas -/

theorem lookup_map_update_ne {β : Type} (k k' : String) (v : β) (hne : k' ≠ k) :
    ∀ m : List (String × β),
      (m.map (fun p => if p.1 = k then (k, v) else p)).lookup k' = m.lookup k' := by
  intro m
  induction m with
  | nil => rfl
  | cons p rest ih =>
      by_cases hp : p.1 = k
      · simp only [List.map_cons, hp, if_true]
        have h1 : (k' == k) = false := by simp [hne]
        have h2 : (k' == p.1) = false := by simp [hp, hne]
        simp [List.lookup, h1, h2, ih]
      · simp only [List.map_cons, hp, if_false]
        by_cases hk' : k' = p.1
        · simp [List.lookup, hk']
        · have h2 : (k' == p.1) = false := by simp [hk']
          simp [List.lookup, h2, ih]

theorem lookup_map_update_mem {β : Type} (k k' : String) (v : β) :
    ∀ m : List (String × β), k ∈ m.map Prod.fst →
      (m.map (fun p => if p.1 = k then (k, v) else p)).lookup k'
        = if k' = k then some v else m.lookup k' := by
  intro m
  induction m with
  | nil => intro h; simp at h
  | cons p rest ih =>
      obtain ⟨pk, pv⟩ := p
      intro h
      simp only [List.map_cons]
      by_cases hp : pk = k
      · rw [show (if (pk, pv).1 = k then (k, v) else (pk, pv)) = (k, v) by simp [hp]]
        by_cases hk' : k' = k
        · rw [if_pos hk', List.lookup_cons]
          simp [hk']
        · have h1 : (k' == k) = false := by simp [hk']
          have h2 : (k' == pk) = false := by rw [hp]; exact h1
          rw [if_neg hk', List.lookup_cons, List.lookup_cons]
          simp only [h1, h2]
          exact lookup_map_update_ne k k' v hk' rest
      · rw [show (if (pk, pv).1 = k then (k, v) else (pk, pv)) = (pk, pv) by simp [hp]]
        by_cases hk'p : k' = pk
        · have hk'k : k' ≠ k := fun hh => hp (hk'p.symm.trans hh)
          have h2 : (k' == pk) = true := by simp [hk'p]
          rw [if_neg hk'k, List.lookup_cons, List.lookup_cons]
          simp only [h2]
        · have h2 : (k' == pk) = false := by simp [hk'p]
          have hmem : k ∈ rest.map Prod.fst := by
            have h' : k ∈ pk :: rest.map Prod.fst := by simpa only [List.map_cons] using h
            rcases List.mem_cons.mp h' with hh | hh
            · exact absurd hh.symm hp
            · exact hh
          rw [List.lookup_cons, List.lookup_cons]
          simp only [h2]
          exact ih hmem

theorem lookup_append_new {β : Type} (k k' : String) (v : β) :
    ∀ m : List (String × β), k ∉ m.map Prod.fst →
      (m ++ [(k, v)]).lookup k' = if k' = k then some v else m.lookup k' := by
  intro m
  induction m with
  | nil =>
      intro _
      by_cases hk' : k' = k
      · rw [if_pos hk']
        simp [List.lookup_cons, hk']
      · have h1 : (k' == k) = false := by simp [hk']
        rw [if_neg hk']
        simp [List.lookup_cons, h1, List.lookup]
  | cons p rest ih =>
      obtain ⟨pk, pv⟩ := p
      intro h
      have hp : pk ≠ k := fun hh => h (by simp [hh])
      have hrest : k ∉ rest.map Prod.fst := fun hh => h (by simp [hh])
      simp only [List.cons_append]
      by_cases hk' : k' = pk
      · have hk'k : k' ≠ k := fun hh => hp (hk'.symm.trans hh)
        have h2 : (k' == pk) = true := by simp [hk']
        rw [if_neg hk'k, List.lookup_cons, List.lookup_cons]
        simp only [h2]
      · have h2 : (k' == pk) = false := by simp [hk']
        rw [List.lookup_cons, List.lookup_cons]
        simp only [h2]
        exact ih hrest

/-- `Map.prototype.set` then `Map.prototype.get`:  the set key reads back the
new value, every other key is unaffected. -/
theorem lookup_mapSet {β : Type} (m : List (String × β)) (k k' : String) (v : β) :
    (mapSet m k v).lookup k' = if k' = k then some v else m.lookup k' := by
  unfold mapSet
  by_cases h : k ∈ m.map Prod.fst
  · simp only [h, if_true]
    exact lookup_map_update_mem k k' v m h
  · simp only [h, if_false]
    exact lookup_append_new k k' v m h

/-- After `registerKeyForId(t, i, ck)` the bucket for `t:i` contains `ck`. -/
theorem register_self (c : RequestCache) (t i ck : String) :
    ∃ b, (c.registerKeyForId t i ck).reverseIndex.lookup (t ++ ":" ++ i) = some b
      ∧ ck ∈ b := by
  have hlook : (c.registerKeyForId t i ck).reverseIndex.lookup (t ++ ":" ++ i)
      = some (if ck ∈ (c.reverseIndex.lookup (t ++ ":" ++ i)).getD []
              then (c.reverseIndex.lookup (t ++ ":" ++ i)).getD []
              else (c.reverseIndex.lookup (t ++ ":" ++ i)).getD [] ++ [ck]) := by
    show (mapSet c.reverseIndex (t ++ ":" ++ i) _).lookup (t ++ ":" ++ i) = _
    rw [lookup_mapSet, if_pos rfl]
  refine ⟨_, hlook, ?_⟩
  by_cases hck : ck ∈ (c.reverseIndex.lookup (t ++ ":" ++ i)).getD [] <;> simp [hck]

/-- `registerKeyForId` only ever grows buckets: memberships persist. -/
theorem register_mono (c : RequestCache) (t i ck : String) {ik : String}
    {b : List String} {k₀ : String}
    (hb : c.reverseIndex.lookup ik = some b) (hk : k₀ ∈ b) :
    ∃ b', (c.registerKeyForId t i ck).reverseIndex.lookup ik = some b' ∧ k₀ ∈ b' := by
  have hlook : (c.registerKeyForId t i ck).reverseIndex.lookup ik
      = if ik = t ++ ":" ++ i
        then some (if ck ∈ (c.reverseIndex.lookup (t ++ ":" ++ i)).getD []
                   then (c.reverseIndex.lookup (t ++ ":" ++ i)).getD []
                   else (c.reverseIndex.lookup (t ++ ":" ++ i)).getD [] ++ [ck])
        else c.reverseIndex.lookup ik := by
    show (mapSet c.reverseIndex (t ++ ":" ++ i) _).lookup ik = _
    rw [lookup_mapSet]
  by_cases h : ik = t ++ ":" ++ i
  · rw [hlook, if_pos h]
    refine ⟨_, rfl, ?_⟩
    rw [← h, hb]
    simp only [Option.getD_some]
    by_cases hck : ck ∈ b <;> simp [hck, hk]
  · rw [hlook, if_neg h]
    exact ⟨b, hb, hk⟩

theorem register_foldl_mono (tbl ck : String) :
    ∀ (ids : List String) (c : RequestCache) {ik : String} {b : List String} {k₀ : String},
      c.reverseIndex.lookup ik = some b → k₀ ∈ b →
      ∃ b', ((ids.foldl (fun c i => c.registerKeyForId tbl i ck) c).reverseIndex.lookup ik)
          = some b' ∧ k₀ ∈ b' := by
  intro ids
  induction ids with
  | nil => intro c ik b k₀ hb hk; exact ⟨b, hb, hk⟩
  | cons j rest ih =>
      intro c ik b k₀ hb hk
      obtain ⟨b₁, hb₁, hk₁⟩ := register_mono c tbl j ck hb hk
      exact ih (c.registerKeyForId tbl j ck) hb₁ hk₁

/-- Registering a list of ids registers every one of them. -/
theorem register_foldl_mem (tbl ck : String) :
    ∀ (ids : List String) (c : RequestCache) (i : String), i ∈ ids →
      ∃ b, ((ids.foldl (fun c i => c.registerKeyForId tbl i ck) c).reverseIndex.lookup
          (tbl ++ ":" ++ i)) = some b ∧ ck ∈ b := by
  intro ids
  induction ids with
  | nil => intro c i hi; simp at hi
  | cons j rest ih =>
      intro c i hi
      rcases List.mem_cons.mp hi with h | h
      · subst h
        obtain ⟨b, hb, hck⟩ := register_self c tbl i ck
        exact register_foldl_mono tbl ck rest (c.registerKeyForId tbl i ck) hb hck
      · exact ih (c.registerKeyForId tbl j ck) i h

theorem addLoader_cache (ctx : Ctx) (k : String) : (addLoader ctx k).cache = ctx.cache := by
  unfold addLoader
  by_cases h : k ∈ ctx.loaderKeys <;> simp [h]

/-- C5, counterexample.  The claim says a non-transactional `find` registers
the stored cache key in the reverse index under every resolved record's
primary key, whatever the primary-key field's name.  But the source registers
under the literal column `'id'` (`repository.ts` line 63: `(row as any)['id']`):
for a table whose primary key is named `uid`, `find` caches the result yet
registers nothing, and a subsequent invalidation of that record leaves the
stale entry in the store. -/
theorem claimC5_counterexample :
    ((findModel "users" (.ok [[("uid", .pNum 7)]]) (runFreshCtx none) []).1
        = .ok [[("uid", .pNum 7)]])
    ∧ ((findModel "users" (.ok [[("uid", .pNum 7)]]) (runFreshCtx none) []).2.1.cache.hasKey
        (findCacheKey "users" []) = true)
    ∧ ((findModel "users" (.ok [[("uid", .pNum 7)]]) (runFreshCtx none) []).2.1.cache.reverseIndex
        = [])
    ∧ (((findModel "users" (.ok [[("uid", .pNum 7)]])
            (runFreshCtx none) []).2.1.cache.invalidateKeysForId "users" "7").store
        = (findModel "users" (.ok [[("uid", .pNum 7)]]) (runFreshCtx none) []).2.1.cache.store) :=
  ⟨by rfl, by decide, by decide, by decide⟩

/-- C5, amended.  After a non-transactional cache-missing `find`, the cache
key is registered in the reverse index under `(table, row['id'])` for every
resolved row that has an `'id'` column (rows without an `'id'` column are not
registered — the registration column is the literal string `'id'`, not the
schema's primary key).  After a non-transactional cache-missing `findById`
that resolves a row, the cache key is registered under
`(table, value[idField])`. -/
theorem claimC5_reverse_index_registration (tbl : String) (rows : List Row) (ctx : Ctx)
    (w : List (String × JsPrim)) (id : JsPrim) (f : String)
    (hctx : ctx.inTransaction = false)
    (hmiss₁ : ctx.cache.hasKey (findCacheKey tbl w) = false)
    (hmiss₂ : ctx.cache.hasKey (findByIdCacheKey tbl id f) = false) :
    (∀ r ∈ rows.filter (rowMatches w), ∀ v, lookupField r "id" = some v →
        ∃ b, ((findModel tbl (.ok rows) ctx w).2.1.cache.reverseIndex.lookup
            (tbl ++ ":" ++ primToString v)) = some b ∧ findCacheKey tbl w ∈ b)
    ∧ (∀ r, lastMatch (rows.filter (fun r => lookupField r f == some id)) id f = some r →
        ∃ b, ((findByIdModel tbl (.ok rows) ctx id f).2.1.cache.reverseIndex.lookup
            (tbl ++ ":" ++ fieldToString r f)) = some b ∧ findByIdCacheKey tbl id f ∈ b) := by
  constructor
  · intro r hr v hv
    have hcache : (findModel tbl (.ok rows) ctx w).2.1.cache
        = ((rows.filter (rowMatches w)).filterMap
              (fun r => (lookupField r "id").map primToString)).foldl
            (fun c i => c.registerKeyForId tbl i (findCacheKey tbl w))
            ((addLoader ctx
                (tbl ++ ":find:" ++ makeCacheKey [whereToJs w])).cache.setKey
              (findCacheKey tbl w) (.rows (rows.filter (rowMatches w)))) := by
      simp [findModel, hctx, hmiss₁]
    rw [hcache]
    refine register_foldl_mem tbl (findCacheKey tbl w) _ _ (primToString v) ?_
    exact List.mem_filterMap.mpr ⟨r, hr, by rw [hv]; rfl⟩
  · intro r hval
    have hcache : (findByIdModel tbl (.ok rows) ctx id f).2.1.cache
        = (((addLoader ctx (tbl ++ ":" ++ f)).cache.setKey
              (findByIdCacheKey tbl id f) (.row (some r))).registerKeyForId
            tbl (fieldToString r f) (findByIdCacheKey tbl id f)) := by
      simp [findByIdModel, hctx, hmiss₂, hval]
    rw [hcache]
    exact register_self _ tbl (fieldToString r f) (findByIdCacheKey tbl id f)

/-- Witness for `claimC5_reverse_index_registration` on a one-row table with
primary key `id`. -/
theorem claimC5_witness :
    (Ctx.inTransaction (runFreshCtx none) = false)
    ∧ ((runFreshCtx none).cache.hasKey (findCacheKey "users" []) = false)
    ∧ ((runFreshCtx none).cache.hasKey (findByIdCacheKey "users" (.pNum 7) "id") = false)
    ∧ ((∀ r ∈ ([[("id", .pNum 7)]] : List Row).filter (rowMatches []),
          ∀ v, lookupField r "id" = some v →
          ∃ b, ((findModel "users" (.ok [[("id", .pNum 7)]])
                  (runFreshCtx none) []).2.1.cache.reverseIndex.lookup
              ("users" ++ ":" ++ primToString v)) = some b ∧ findCacheKey "users" [] ∈ b)
      ∧ (∀ r, lastMatch (([[("id", .pNum 7)]] : List Row).filter
              (fun r => lookupField r "id" == some (.pNum 7))) (.pNum 7) "id" = some r →
          ∃ b, ((findByIdModel "users" (.ok [[("id", .pNum 7)]])
                  (runFreshCtx none) (.pNum 7) "id").2.1.cache.reverseIndex.lookup
              ("users" ++ ":" ++ fieldToString r "id")) = some b
            ∧ findByIdCacheKey "users" (.pNum 7) "id" ∈ b)) :=
  ⟨by decide, by decide, by decide,
   claimC5_reverse_index_registration "users" [[("id", .pNum 7)]] (runFreshCtx none)
     [] (.pNum 7) "id" (by decide) (by decide) (by decide)⟩

theorem foldl_lastMatch_none {f : String} {id : JsPrim} :
    ∀ (rows : List Row) (acc : Option Row),
      rows.foldl (fun acc r => if lookupField r f == some id then some r else acc) acc = none →
      acc = none ∧ ∀ r ∈ rows, ¬(lookupField r f = some id) := by
  intro rows
  induction rows with
  | nil => intro acc h; exact ⟨h, by simp⟩
  | cons x rest ih =>
      intro acc h
      simp only [List.foldl_cons] at h
      obtain ⟨hacc, hall⟩ := ih _ h
      by_cases hx : lookupField x f = some id
      · rw [hx] at hacc
        simp at hacc
      · have hbeq : (lookupField x f == some id) = false := beq_eq_false_iff_ne.mpr hx
        simp only [hbeq, Bool.false_eq_true, if_false] at hacc
        refine ⟨hacc, ?_⟩
        intro r hr
        rcases List.mem_cons.mp hr with hh | hh
        · subst hh; exact hx
        · exact hall r hh

theorem foldl_lastMatch_some {f : String} {id : JsPrim} :
    ∀ (rows : List Row) (acc : Option Row) (r : Row),
      rows.foldl (fun acc r => if lookupField r f == some id then some r else acc) acc
          = some r →
      (r ∈ rows ∧ lookupField r f = some id) ∨ acc = some r := by
  intro rows
  induction rows with
  | nil => intro acc r h; exact Or.inr h
  | cons x rest ih =>
      intro acc r h
      simp only [List.foldl_cons] at h
      rcases ih _ r h with ⟨hmem, hf⟩ | hacc
      · exact Or.inl ⟨List.mem_cons_of_mem x hmem, hf⟩
      · by_cases hx : lookupField x f = some id
        · rw [hx] at hacc
          simp only [beq_self_eq_true, if_true, Option.some.injEq] at hacc
          subst hacc
          exact Or.inl ⟨List.mem_cons_self x rest, hx⟩
        · have hbeq : (lookupField x f == some id) = false := beq_eq_false_iff_ne.mpr hx
          simp only [hbeq, Bool.false_eq_true, if_false] at hacc
          exact Or.inr hacc

/-- C8, counterexample.  The claim quantifies over every list of ids, but for
the empty list `findByIds` returns `[]` without issuing any query at all
(the source's first line short-circuits), so "issues a single query using an
'in' predicate" fails at `ids = []`. -/
theorem claimC8_counterexample :
    (findByIdsModel "users" (.ok [[("id", .pNum 1)], [("id", .pNum 3)]])
        (runFreshCtx none) [] "id").2.2 = []
    ∧ ¬((findByIdsModel "users" (.ok [[("id", .pNum 1)], [("id", .pNum 3)]])
        (runFreshCtx none) [] "id").2.2 = [Ev.query])
    ∧ (findByIdsModel "users" (.ok [[("id", .pNum 1)], [("id", .pNum 3)]])
        (runFreshCtx none) [] "id").1 = .ok [] :=
  ⟨by decide, by decide, by rfl⟩

/-- C8, amended.  For every NON-EMPTY list of ids, `findByIds` issues exactly
one `in`-predicate query, leaves the context untouched, and returns a list of
the same length in the caller's requested order: at each position either
`null` with no row of the table carrying that id, or the matching row.  For
the empty list it issues no query and returns `[]`. -/
theorem claimC8_findByIds_order (tbl : String) (rows : List Row) (ctx : Ctx)
    (ids : List JsPrim) (f : String) (hne : ids ≠ []) :
    (findByIdsModel tbl (.ok rows) ctx ids f).2.2 = [.query]
    ∧ (findByIdsModel tbl (.ok rows) ctx ids f).2.1 = ctx
    ∧ ∃ out, (findByIdsModel tbl (.ok rows) ctx ids f).1 = .ok out
        ∧ out.length = ids.length
        ∧ ∀ i id, ids.get? i = some id →
            ((out.get? i = some none ∧ ∀ r ∈ rows, ¬(lookupField r f = some id))
              ∨ ∃ r, out.get? i = some (some r) ∧ r ∈ rows ∧ lookupField r f = some id) := by
  refine ⟨by simp [findByIdsModel, hne], by simp [findByIdsModel, hne], ?_⟩
  refine ⟨ids.map (fun id =>
      lastMatch (rows.filter (fun r =>
        match lookupField r f with
        | some v => ids.contains v
        | none => false)) id f), by simp [findByIdsModel, hne], by simp, ?_⟩
  intro i id hi
  have hidmem : id ∈ ids := List.get?_mem hi
  have hget : (ids.map (fun id =>
      lastMatch (rows.filter (fun r =>
        match lookupField r f with
        | some v => ids.contains v
        | none => false)) id f)).get? i
      = some (lastMatch (rows.filter (fun r =>
          match lookupField r f with
          | some v => ids.contains v
          | none => false)) id f) := by
    rw [List.get?_map, hi]
    rfl
  cases hcase : lastMatch (rows.filter (fun r =>
      match lookupField r f with
      | some v => ids.contains v
      | none => false)) id f with
  | none =>
      left
      refine ⟨by rw [hget, hcase], ?_⟩
      intro r hr hfield
      have hrfilter : r ∈ rows.filter (fun r =>
          match lookupField r f with
          | some v => ids.contains v
          | none => false) := by
        refine List.mem_filter.mpr ⟨hr, ?_⟩
        rw [hfield]
        simpa using hidmem
      have := (foldl_lastMatch_none _ none hcase).2 r hrfilter
      exact this hfield
  | some r =>
      right
      refine ⟨r, by rw [hget, hcase], ?_⟩
      rcases foldl_lastMatch_some _ none r hcase with ⟨hmem, hf⟩ | habs
      · exact ⟨(List.mem_filter.mp hmem).1, hf⟩
      · exact absurd habs (by simp)

/-- Witness for `claimC8_findByIds_order`: the spec's order-preservation
example — `findByIds([3,2,1])` against a store holding ids 1 and 3 returns
`[row(3), null, row(1)]`. -/
theorem claimC8_witness :
    (([JsPrim.pNum 3, JsPrim.pNum 2, JsPrim.pNum 1] : List JsPrim) ≠ [])
    ∧ (findByIdsModel "users" (.ok [[("id", .pNum 1)], [("id", .pNum 3)]])
          (runFreshCtx none) [.pNum 3, .pNum 2, .pNum 1] "id").1
        = .ok [some [("id", .pNum 3)], none, some [("id", .pNum 1)]]
    ∧ ((findByIdsModel "users" (.ok [[("id", .pNum 1)], [("id", .pNum 3)]])
          (runFreshCtx none) [.pNum 3, .pNum 2, .pNum 1] "id").2.2 = [.query]
      ∧ (findByIdsModel "users" (.ok [[("id", .pNum 1)], [("id", .pNum 3)]])
          (runFreshCtx none) [.pNum 3, .pNum 2, .pNum 1] "id").2.1 = runFreshCtx none
      ∧ ∃ out, (findByIdsModel "users" (.ok [[("id", .pNum 1)], [("id", .pNum 3)]])
            (runFreshCtx none) [.pNum 3, .pNum 2, .pNum 1] "id").1 = .ok out
          ∧ out.length = ([JsPrim.pNum 3, JsPrim.pNum 2, JsPrim.pNum 1] : List JsPrim).length
          ∧ ∀ i id, ([JsPrim.pNum 3, JsPrim.pNum 2, JsPrim.pNum 1] : List JsPrim).get? i
                = some id →
              ((out.get? i = some none
                  ∧ ∀ r ∈ ([[("id", .pNum 1)], [("id", .pNum 3)]] : List Row),
                      ¬(lookupField r "id" = some id))
                ∨ ∃ r, out.get? i = some (some r)
                    ∧ r ∈ ([[("id", .pNum 1)], [("id", .pNum 3)]] : List Row)
                    ∧ lookupField r "id" = some id)) :=
  ⟨by decide, by rfl,
   claimC8_findByIds_order "users" [[("id", .pNum 1)], [("id", .pNum 3)]]
     (runFreshCtx none) [.pNum 3, .pNum 2, .pNum 1] "id" (by decide)⟩

/-- C9.  Two independent `run` invocations are fully isolated however their
operations interleave: running any interleaved schedule over the pair of
contexts produces, on each side, exactly the context obtained by running that
side's own operations alone — so a cache write (or loader registration, or
any repository effect) performed inside one run is never visible to a cache
get inside the other.  `AsyncLocalStorage.run` hands each `run(fn)` its own
`RequestState`; with no supplied cache each state owns a fresh
`new RequestCache()` and a fresh loader `Map` (`runFreshCtx none`), so the two
states share no mutable structure and each step of the schedule touches only
its own side.  (Two runs of a `createORMContext` whose config supplies one
explicit cache object share that cache by reference; the claim's "fresh cache
when none is supplied" scopes it to the default situation modelled here.) -/
theorem claimC9_context_isolation (tbl : String) (db : Except String (List Row))
    (sched : List (Bool × ROp)) :
    (∀ c₁ c₂ : Ctx, runSched tbl db sched (c₁, c₂)
        = (runOps tbl db c₁ (sideOps true sched), runOps tbl db c₂ (sideOps false sched)))
    ∧ runSched tbl db sched (runFreshCtx none, runFreshCtx none)
      = (runOps tbl db (runFreshCtx none) (sideOps true sched),
         runOps tbl db (runFreshCtx none) (sideOps false sched)) := by
  have main : ∀ (sched : List (Bool × ROp)) (c₁ c₂ : Ctx),
      runSched tbl db sched (c₁, c₂)
        = (runOps tbl db c₁ (sideOps true sched), runOps tbl db c₂ (sideOps false sched)) := by
    intro sched
    induction sched with
    | nil => intro c₁ c₂; rfl
    | cons step rest ih =>
        intro c₁ c₂
        obtain ⟨side, op⟩ := step
        cases side with
        | true =>
            simp only [runSched, if_true]
            rw [ih (applyOp tbl db c₁ op) c₂]
            simp [sideOps, runOps, List.filter]
        | false =>
            simp only [runSched, Bool.false_eq_true, if_false]
            rw [ih c₁ (applyOp tbl db c₂ op)]
            simp [sideOps, runOps, List.filter]
  exact ⟨main sched, main sched (runFreshCtx none) (runFreshCtx none)⟩
